import Mathlib

/-
Verification of the form decoding/validation engine of the `httpc` library.

The engine (forms.go) decodes an HTTP request body into a caller-supplied
`Form` and then validates it recursively:

  - `Validate(req, form)` parses the Content-Type header with
    `mime.ParseMediaType` and dispatches to the JSON, multipart or
    URL-encoded-form decode path;
  - `validate(form)` walks the decoded structure with reflection:
    `validateFields` iterates struct fields (recursing first into anonymous
    (embedded) fields), `validateField` skips nil pointers and
    non-interfaceable values and recursively validates any field value that
    implements `Form`; after the fields, the container's own `Validate()`
    runs;
  - `ValidateMultipart` parses the multipart body up to an upload-size
    ceiling before decoding and validating.

This file gives a shallow embedding of those functions and proves the
behavioural properties stated in the specification.
-/

namespace Httpc

/-- Validation error codes returned by a `Form`'s own `Validate()` method.
The engine treats them as opaque, so a `Nat` code suffices. -/
abbrev Err := Nat

/-- A trace event: one invocation of some value's `Validate()` method,
recording the node's label and the returned result (`none` = success). -/
abbrev Event := Nat × Option Err

/-- Model of a Go value as seen by the reflection walk in forms.go.

Each node carries:
  - `label`: a ghost identifier used only by the instrumentation (it lets
    theorems speak about *which* node's `Validate()` ran); the walk itself
    never branches on it;
  - `canI`: the result of `reflect.Value.CanInterface()` (false for values
    reached through unexported fields);
  - `impl`: `some r` iff the value's dynamic type implements the `Form`
    interface, in which case `r` is the result its `Validate()` method
    returns (`none` = nil error); `none` iff the type assertion
    `v.Interface().(Form)` fails.

The three shapes are the ones `validateFields`/`validateField` distinguish:
  - `prim`: any value whose Kind is neither Ptr nor Struct;
  - `ptr`: a pointer, possibly nil (`pointee = none`); `v.Elem()` of a
    non-nil pointer is the pointee;
  - `strct`: a struct; each field is a pair of its `Anonymous` flag
    (embedded field) and its value. -/
inductive Value where
  | prim (label : Nat) (canI : Bool) (impl : Option (Option Err)) : Value
  | ptr (label : Nat) (canI : Bool) (impl : Option (Option Err))
      (pointee : Option Value) : Value
  | strct (label : Nat) (canI : Bool) (impl : Option (Option Err))
      (fields : List (Bool × Value)) : Value

/-- The ghost label of a node. -/
def labelOf : Value → Nat
  | .prim l _ _ => l
  | .ptr l _ _ _ => l
  | .strct l _ _ _ => l

/-- `reflect.Value.CanInterface()` for a node. -/
def canIOf : Value → Bool
  | .prim _ c _ => c
  | .ptr _ c _ _ => c
  | .strct _ c _ _ => c

/-- Whether the node's dynamic type implements `Form` (the type assertion
`v.Interface().(Form)`), and if so what its `Validate()` returns. -/
def implOf : Value → Option (Option Err)
  | .prim _ _ i => i
  | .ptr _ _ i _ => i
  | .strct _ _ i _ => i

/-- `v.Kind() == reflect.Ptr && v.IsNil()`. -/
def isNilPtr : Value → Bool
  | .ptr _ _ _ none => true
  | _ => false

/-- The result of calling `form.Validate()` on a node.  The engine only
calls it on values that satisfy the `Form` type assertion (`implOf v` is
`some r`); the `none` fallback is never reached from those call sites. -/
def formRes (v : Value) : Option Err :=
  match implOf v with
  | some r => r
  | none => none

/-- The struct fields that `validateFields` iterates for a value: it first
dereferences one level of pointer (`if v.Kind() == reflect.Ptr { v =
v.Elem() }`) and then, only if the result is a struct, walks its fields.
For a nil pointer `v.Elem()` has Kind Invalid, so no fields are walked. -/
def fieldsOf : Value → List (Bool × Value)
  | .strct _ _ _ fs => fs
  | .ptr _ _ _ (some (.strct _ _ _ fs)) => fs
  | _ => []

/-- Fail-fast sequencing of two traced computations, mirroring the
`if err != nil { return err }` pattern: if the first fails, its error is
returned and the second contributes nothing (its events never happen);
otherwise the traces concatenate and the second's result is returned. -/
def tseq (a b : List Event × Option Err) : List Event × Option Err :=
  match a with
  | (t, some e) => (t, some e)
  | (t, none) => (t ++ b.1, b.2)

theorem sizeOf_fieldsOf_le (v : Value) : sizeOf (fieldsOf v) ≤ sizeOf v := by
  match v with
  | .prim l c i =>
    simp only [fieldsOf, List.nil.sizeOf_spec, Value.prim.sizeOf_spec]
    omega
  | .ptr l c i none =>
    simp only [fieldsOf, List.nil.sizeOf_spec, Value.ptr.sizeOf_spec]
    omega
  | .ptr l c i (some w) =>
    match w with
    | .prim l2 c2 i2 =>
      simp only [fieldsOf, List.nil.sizeOf_spec, Value.ptr.sizeOf_spec]
      omega
    | .ptr l2 c2 i2 p2 =>
      simp only [fieldsOf, List.nil.sizeOf_spec, Value.ptr.sizeOf_spec]
      omega
    | .strct l2 c2 i2 fs =>
      simp only [fieldsOf, Value.ptr.sizeOf_spec, Value.strct.sizeOf_spec,
        Option.some.sizeOf_spec]
      omega
  | .strct l c i fs =>
    simp only [fieldsOf, Value.strct.sizeOf_spec]
    omega

/-- The loop body of `validateFields` (forms.go lines 57–79), instrumented
with the event trace.  For each field, if it is anonymous (embedded) the
walk first recurses into its own fields (`validateFields(fieldVal,
fieldType.Type)`), then in all cases runs `validateField(fieldVal)`: skip a
nil pointer, skip a value that cannot be interfaced, skip a value that does
not implement `Form`, and otherwise run `validate` on it — its fields, then
its own `Validate()` (recorded as an event).  Each step returns the first
error. -/
def walkFields : List (Bool × Value) → List Event × Option Err
  | [] => ([], none)
  | (anon, fv) :: rest =>
    tseq (if anon then walkFields (fieldsOf fv) else ([], none))
      (tseq
        (if isNilPtr fv then ([], none)
         else if canIOf fv = false then ([], none)
         else
           match implOf fv with
           | none => ([], none)
           | some _ =>
             tseq (walkFields (fieldsOf fv))
               ([(labelOf fv, formRes fv)], formRes fv))
        (walkFields rest))
termination_by l => sizeOf l
decreasing_by
  all_goals simp_wf
  all_goals have h := sizeOf_fieldsOf_le fv
  all_goals omega

/-- `validateFields(v, t)` (forms.go lines 57–79): dereference one pointer
level, then walk the fields if the result is a struct. -/
def validateFields (v : Value) : List Event × Option Err :=
  walkFields (fieldsOf v)

/-- `validate(form)` (forms.go lines 43–51): validate nested fields first;
if that fails return the error, otherwise call `form.Validate()` (recorded
as an event on the container's label). -/
def validate (v : Value) : List Event × Option Err :=
  tseq (validateFields v) ([(labelOf v, formRes v)], formRes v)

/-- `validateField(v)` (forms.go lines 82–94): a nil pointer validates
trivially; a value that cannot be interfaced is skipped; a value that does
not implement `Form` is skipped; otherwise `validate` runs on it. -/
def validateField (v : Value) : List Event × Option Err :=
  if isNilPtr v then ([], none)
  else if canIOf v = false then ([], none)
  else
    match implOf v with
    | none => ([], none)
    | some _ => validate v

/-- The loop of `validateFields` processes a field exactly as
`validateFields` followed by `validateField` (for anonymous fields) or as
`validateField` alone. -/
theorem walkFields_cons (anon : Bool) (fv : Value) (rest : List (Bool × Value)) :
    walkFields ((anon, fv) :: rest) =
      tseq (if anon then validateFields fv else ([], none))
        (tseq (validateField fv) (walkFields rest)) := by
  rw [walkFields]
  rfl

theorem walkFields_nil : walkFields [] = ([], none) := by
  rw [walkFields]

/-- Strong induction on any sizeOf measure, used for the nested recursion
of the field walk. -/
theorem sizeOf_strong_ind {α : Type} [SizeOf α] (P : α → Prop)
    (h : ∀ x, (∀ y, sizeOf y < sizeOf x → P y) → P x) : ∀ x, P x := by
  have H : ∀ n : Nat, ∀ x : α, sizeOf x ≤ n → P x := by
    intro n
    induction n with
    | zero =>
      intro x hx
      exact h x (fun y hy => absurd (Nat.lt_of_lt_of_le hy hx) (Nat.not_lt_zero _))
    | succ n ih =>
      intro x hx
      exact h x (fun y hy => ih y (Nat.le_of_lt_succ (Nat.lt_of_lt_of_le hy hx)))
  exact fun x => H (sizeOf x) x (Nat.le_refl _)

theorem sizeOf_value_lt_cons (anon : Bool) (fv : Value) (rest : List (Bool × Value)) :
    sizeOf fv < sizeOf ((anon, fv) :: rest) := by
  simp only [List.cons.sizeOf_spec, Prod.mk.sizeOf_spec]
  omega

theorem sizeOf_fieldsOf_lt_cons (anon : Bool) (fv : Value) (rest : List (Bool × Value)) :
    sizeOf (fieldsOf fv) < sizeOf ((anon, fv) :: rest) := by
  have h := sizeOf_fieldsOf_le fv
  have h2 := sizeOf_value_lt_cons anon fv rest
  omega

theorem sizeOf_rest_lt_cons (anon : Bool) (fv : Value) (rest : List (Bool × Value)) :
    sizeOf rest < sizeOf ((anon, fv) :: rest) := by
  simp only [List.cons.sizeOf_spec, Prod.mk.sizeOf_spec]
  omega

/- Algebra of the fail-fast sequencing. -/

theorem tseq_nil_left (b : List Event × Option Err) : tseq ([], none) b = b := by
  simp [tseq]

theorem tseq_nil_right (a : List Event × Option Err) : tseq a ([], none) = a := by
  match a with
  | (t, some e) => simp [tseq]
  | (t, none) => simp [tseq]

theorem tseq_assoc (a b c : List Event × Option Err) :
    tseq (tseq a b) c = tseq a (tseq b c) := by
  match a with
  | (t, some e) => simp [tseq]
  | (t, none) =>
    match b with
    | (tb, some e) => simp [tseq]
    | (tb, none) =>
      match c with
      | (tc, rc) => simp [tseq]

theorem tseq_fail (t : List Event) (e : Err) (b : List Event × Option Err) :
    tseq (t, some e) b = (t, some e) := by
  simp [tseq]

theorem tseq_ok (t : List Event) (b : List Event × Option Err) :
    tseq (t, none) b = (t ++ b.1, b.2) := by
  simp [tseq]

/-- The field walk distributes over list append in fail-fast style. -/
theorem walkFields_append (l1 l2 : List (Bool × Value)) :
    walkFields (l1 ++ l2) = tseq (walkFields l1) (walkFields l2) := by
  induction l1 with
  | nil => simp [walkFields_nil, tseq_nil_left]
  | cons hd tl ih =>
    match hd with
    | (anon, fv) =>
      rw [List.cons_append, walkFields_cons, walkFields_cons, ih,
        ← tseq_assoc, ← tseq_assoc, ← tseq_assoc]

/- The trace invariant: every `Validate()` invocation before the last one
succeeded, and if the walk failed, the last invocation is the one whose
error is returned.  This is the fail-fast/first-error discipline. -/

/-- All events in a trace are successful invocations. -/
def OkEvents (t : List Event) : Prop := ∀ ev ∈ t, ev.2 = (none : Option Err)

/-- A traced outcome respects fail-fast first-error reporting: on success
every recorded invocation succeeded; on failure the trace is a sequence of
successful invocations followed by exactly the failing one, whose error is
the returned error. -/
def TraceInv (a : List Event × Option Err) : Prop :=
  match a.2 with
  | none => OkEvents a.1
  | some e => ∃ t2 lab, a.1 = t2 ++ [(lab, some e)] ∧ OkEvents t2

theorem okEvents_nil : OkEvents [] := by
  intro ev h
  simp at h

theorem okEvents_append {t1 t2 : List Event} (h1 : OkEvents t1) (h2 : OkEvents t2) :
    OkEvents (t1 ++ t2) := by
  intro ev h
  rcases List.mem_append.1 h with h | h
  · exact h1 ev h
  · exact h2 ev h

theorem traceInv_tseq {a b : List Event × Option Err}
    (ha : TraceInv a) (hb : TraceInv b) : TraceInv (tseq a b) := by
  match a with
  | (t, some e) => simpa [tseq, TraceInv] using ha
  | (t, none) =>
    match b with
    | (tb, none) =>
      simp only [TraceInv, OkEvents] at ha hb ⊢
      simp only [tseq]
      exact okEvents_append ha hb
    | (tb, some e) =>
      simp only [TraceInv] at ha hb ⊢
      obtain ⟨t2, lab, heq, hok⟩ := hb
      refine ⟨t ++ t2, lab, ?_, okEvents_append ha hok⟩
      simp [tseq, heq]

theorem traceInv_self (lab : Nat) (r : Option Err) : TraceInv ([(lab, r)], r) := by
  match r with
  | none =>
    simp only [TraceInv, OkEvents]
    intro ev h
    simp at h
    simp [h]
  | some e =>
    simp only [TraceInv]
    exact ⟨[], lab, by simp, okEvents_nil⟩

/-- Every walk outcome satisfies the fail-fast trace invariant. -/
theorem walkFields_traceInv : ∀ l, TraceInv (walkFields l) := by
  apply sizeOf_strong_ind (fun l => TraceInv (walkFields l))
  intro l ih
  match l with
  | [] =>
    rw [walkFields_nil]
    simp only [TraceInv]
    exact okEvents_nil
  | (anon, fv) :: rest =>
    rw [walkFields_cons]
    have hfields : TraceInv (validateFields fv) :=
      ih _ (sizeOf_fieldsOf_lt_cons anon fv rest)
    have hfield : TraceInv (validateField fv) := by
      rw [validateField]
      by_cases h1 : isNilPtr fv
      · simp only [h1, if_true, TraceInv]
        exact okEvents_nil
      · simp only [h1, if_false]
        by_cases h2 : canIOf fv = false
        · simp only [h2, if_true, TraceInv]
          exact okEvents_nil
        · simp only [h2, if_false]
          match himpl : implOf fv with
          | none =>
            simp only [TraceInv]
            exact okEvents_nil
          | some r =>
            exact traceInv_tseq hfields (traceInv_self _ _)
    have hrest : TraceInv (walkFields rest) :=
      ih _ (sizeOf_rest_lt_cons anon fv rest)
    refine traceInv_tseq ?_ (traceInv_tseq hfield hrest)
    by_cases h : anon
    · simpa [h] using hfields
    · simp only [h, if_false, TraceInv]
      exact okEvents_nil

theorem validate_traceInv (v : Value) : TraceInv (validate v) :=
  traceInv_tseq (walkFields_traceInv (fieldsOf v)) (traceInv_self _ _)

/-- The labels of all nodes the field walk can reach from a field list:
every field value itself, plus everything reachable through its struct
fields (after one pointer dereference). -/
def rlabels : List (Bool × Value) → List Nat
  | [] => []
  | (_, fv) :: rest => (labelOf fv :: rlabels (fieldsOf fv)) ++ rlabels rest
termination_by l => sizeOf l
decreasing_by
  all_goals simp_wf
  all_goals have h := sizeOf_fieldsOf_le fv
  all_goals omega

theorem mem_tseq {a b : List Event × Option Err} {ev : Event}
    (h : ev ∈ (tseq a b).1) : ev ∈ a.1 ∨ ev ∈ b.1 := by
  match a with
  | (t, some e) => exact Or.inl (by simpa [tseq] using h)
  | (t, none) =>
    simp only [tseq] at h
    exact List.mem_append.1 h

/-- Every event the field walk records belongs to a reachable node. -/
theorem walkFields_labels :
    ∀ l, ∀ ev ∈ (walkFields l).1, ev.1 ∈ rlabels l := by
  apply sizeOf_strong_ind (fun l => ∀ ev ∈ (walkFields l).1, ev.1 ∈ rlabels l)
  intro l ih
  match l with
  | [] =>
    rw [walkFields_nil]
    intro ev h
    simp at h
  | (anon, fv) :: rest =>
    intro ev hev
    rw [walkFields_cons] at hev
    rw [rlabels]
    have hfields : ev ∈ (validateFields fv).1 → ev.1 ∈ rlabels (fieldsOf fv) :=
      fun h => ih _ (sizeOf_fieldsOf_lt_cons anon fv rest) ev h
    rcases mem_tseq hev with h | h
    · by_cases ha : anon
      · simp only [ha, if_true] at h
        exact List.mem_append.2 (Or.inl (List.mem_cons_of_mem _ (hfields h)))
      · simp [ha] at h
    rcases mem_tseq h with h | h
    · rw [validateField] at h
      by_cases h1 : isNilPtr fv
      · simp [h1] at h
      simp only [h1, if_false] at h
      by_cases h2 : canIOf fv = false
      · simp [h2] at h
      simp only [h2, if_false] at h
      match himpl : implOf fv with
      | none => simp [himpl] at h
      | some r =>
        simp only [himpl] at h
        rcases mem_tseq h with h | h
        · exact List.mem_append.2 (Or.inl (List.mem_cons_of_mem _ (hfields h)))
        · simp only [List.mem_singleton] at h
          subst h
          exact List.mem_append.2 (Or.inl (List.mem_cons_self _ _))
    · exact List.mem_append.2 (Or.inr (ih _ (sizeOf_rest_lt_cons anon fv rest) ev h))

/-- C1. For every target structure, the recursive validator returns the
first error encountered in traversal order and aggregates nothing: on
success every recorded `Validate()` invocation succeeded; on failure the
recorded invocations are a run of successes followed by exactly the failing
invocation, whose error is the returned one (so the walk stops there).
Moreover, when the nested-field walk rejects, the container's own
`Validate()` is never invoked: provided the container's label does not
recur among its reachable sub-nodes, no recorded event carries it. -/
theorem validate_first_error_fail_fast (v : Value) :
    ((validate v).2 = none → ∀ ev ∈ (validate v).1, ev.2 = (none : Option Err)) ∧
    (∀ e, (validate v).2 = some e →
      ∃ t2 lab, (validate v).1 = t2 ++ [(lab, some e)] ∧
        ∀ ev ∈ t2, ev.2 = (none : Option Err)) ∧
    (∀ e, (validateFields v).2 = some e → labelOf v ∉ rlabels (fieldsOf v) →
      validate v = validateFields v ∧
        labelOf v ∉ (validate v).1.map Prod.fst) := by
  refine ⟨?_, ?_, ?_⟩
  · intro hnone
    have h := validate_traceInv v
    simp only [TraceInv, hnone] at h
    exact h
  · intro e he
    have h := validate_traceInv v
    simp only [TraceInv, he] at h
    exact h
  · intro e he hnot
    have heq : validate v = validateFields v := by
      rw [validate]
      match hv : validateFields v with
      | (t, r) =>
        rw [hv] at he
        simp only at he
        subst he
        simp [tseq]
    refine ⟨heq, ?_⟩
    rw [heq]
    intro hmem
    rcases List.mem_map.1 hmem with ⟨ev, hev, hl⟩
    exact hnot (hl ▸ walkFields_labels (fieldsOf v) ev hev)

/-- Witness for C1: a container (label 0, container error 5) with one
nested `Form` field (label 1) whose `Validate()` fails with 7.  The walk
returns 7, records exactly the nested invocation, and never invokes the
container's `Validate()`. -/
theorem validate_first_error_fail_fast_witness :
    (∃ t2 lab,
      (validate (Value.strct 0 true (some (some 5))
        [(false, Value.prim 1 true (some (some 7)))])).1 = t2 ++ [(lab, some 7)] ∧
      ∀ ev ∈ t2, ev.2 = (none : Option Err)) ∧
    (0 : Nat) ∉ (validate (Value.strct 0 true (some (some 5))
        [(false, Value.prim 1 true (some (some 7)))])).1.map Prod.fst := by
  constructor
  · exact (validate_first_error_fail_fast _).2.1 7
      (by simp [validate, validateFields, fieldsOf, walkFields, validateField,
        tseq, isNilPtr, canIOf, implOf, formRes, labelOf])
  · exact ((validate_first_error_fail_fast _).2.2 7
      (by simp [validateFields, fieldsOf, walkFields, validateField,
        tseq, isNilPtr, canIOf, implOf, formRes, labelOf])
      (by simp [rlabels, fieldsOf, labelOf])).2

/-- The flattening that decoding applies to embedded (anonymous) fields:
an anonymous field is replaced by its own (recursively flattened) fields,
followed by the field value itself as an ordinary field; other fields are
kept in place. -/
def flattenFields : List (Bool × Value) → List (Bool × Value)
  | [] => []
  | (anon, fv) :: rest =>
    if anon then flattenFields (fieldsOf fv) ++ ((false, fv) :: flattenFields rest)
    else (false, fv) :: flattenFields rest
termination_by l => sizeOf l
decreasing_by
  all_goals simp_wf
  all_goals have h := sizeOf_fieldsOf_le fv
  all_goals omega

/-- C3. Embedding is transparent to validation ordering: an embedded
(anonymous) field is recursed into first — its fields validated as if they
belonged to the parent, in declaration order — and afterwards the field
value itself is validated (`validateField`, which applies the Validatable
check).  Consequently walking a field list is the same traced computation
as walking its decode-time flattening, and a struct validates exactly like
the struct with its embedded components flattened out. -/
theorem embedded_fields_flattened :
    (∀ fv rest, walkFields ((true, fv) :: rest) =
      tseq (validateFields fv) (tseq (validateField fv) (walkFields rest))) ∧
    (∀ l, walkFields (flattenFields l) = walkFields l) ∧
    (∀ lab c i l, validate (Value.strct lab c i (flattenFields l)) =
      validate (Value.strct lab c i l)) := by
  have hmain : ∀ l, walkFields (flattenFields l) = walkFields l := by
    apply sizeOf_strong_ind (fun l => walkFields (flattenFields l) = walkFields l)
    intro l ih
    match l with
    | [] => rw [flattenFields]
    | (anon, fv) :: rest =>
      have ihrest : walkFields (flattenFields rest) = walkFields rest :=
        ih _ (sizeOf_rest_lt_cons anon fv rest)
      by_cases h : anon
      · subst h
        rw [flattenFields]
        simp only [if_true]
        rw [walkFields_append, walkFields_cons,
          ih _ (sizeOf_fieldsOf_lt_cons true fv rest), walkFields_cons, ihrest]
        simp [validateFields, tseq_nil_left]
      · simp only [h] at *
        rw [flattenFields]
        simp only [if_false, Bool.false_eq_true]
        rw [walkFields_cons, walkFields_cons, ihrest]
  refine ⟨?_, hmain, ?_⟩
  · intro fv rest
    rw [walkFields_cons]
    simp
  · intro lab c i l
    rw [validate, validate]
    simp only [validateFields, fieldsOf, labelOf, formRes, implOf]
    rw [hmain]

/-- C4. A nil optional reference validates trivially and the branch
beneath it is skipped: `validateField` and `validateFields` of a nil
pointer record no events and succeed, a nil-pointer field can be removed
from any field list without changing the walk at all, and a structure with
an absent optional nested reference validates exactly like the structure
without that field — so overall validation succeeds whenever the present
fields (and the container) are valid. -/
theorem nil_reference_trivially_valid (lab : Nat) (cb : Bool) (im : Option (Option Err)) :
    validateField (Value.ptr lab cb im none) = ([], none) ∧
    validateFields (Value.ptr lab cb im none) = ([], none) ∧
    (∀ l1 l2 b, walkFields (l1 ++ (b, Value.ptr lab cb im none) :: l2) =
      walkFields (l1 ++ l2)) ∧
    (∀ slab sc si l1 l2 b,
      validate (Value.strct slab sc si (l1 ++ (b, Value.ptr lab cb im none) :: l2)) =
      validate (Value.strct slab sc si (l1 ++ l2))) := by
  have hfield : validateField (Value.ptr lab cb im none) = ([], none) := by
    simp [validateField, isNilPtr]
  have hfields : validateFields (Value.ptr lab cb im none) = ([], none) := by
    simp [validateFields, fieldsOf, walkFields_nil]
  have hwalk : ∀ l1 l2 b, walkFields (l1 ++ (b, Value.ptr lab cb im none) :: l2) =
      walkFields (l1 ++ l2) := by
    intro l1 l2 b
    rw [walkFields_append, walkFields_append, walkFields_cons, hfield, hfields]
    have : (if b = true then (([], none) : List Event × Option Err) else ([], none)) =
        ([], none) := by
      by_cases hb : b = true <;> simp [hb]
    rw [this, tseq_nil_left, tseq_nil_left]
  refine ⟨hfield, hfields, hwalk, ?_⟩
  intro slab sc si l1 l2 b
  rw [validate, validate]
  simp only [validateFields, fieldsOf, labelOf, formRes, implOf]
  rw [hwalk]

/-- C7. A field value that cannot be inspected safely (CanInterface is
false) is silently skipped: `validateField` records no events and
succeeds — regardless of whether the value implements `Form` or what its
`Validate()` would return — and such a (non-embedded) field can be removed
from any field list without changing the walk. -/
theorem uninspectable_field_skipped (v : Value) (h : canIOf v = false) :
    validateField v = ([], none) ∧
    ∀ l1 l2, walkFields (l1 ++ (false, v) :: l2) = walkFields (l1 ++ l2) := by
  have hfield : validateField v = ([], none) := by
    rw [validateField]
    by_cases h1 : isNilPtr v
    · simp [h1]
    · simp [h1, h]
  refine ⟨hfield, ?_⟩
  intro l1 l2
  rw [walkFields_append, walkFields_append, walkFields_cons, hfield]
  simp only [Bool.false_eq_true, if_false, tseq_nil_left]

/-- Witness for C7: an unexported field (CanInterface false) whose type
would fail validation with error 9 is skipped and causes nothing. -/
theorem uninspectable_field_skipped_witness :
    validateField (Value.prim 3 false (some (some 9))) = ([], none) ∧
    walkFields [(false, Value.prim 3 false (some (some 9)))] = walkFields [] := by
  constructor
  · exact (uninspectable_field_skipped (Value.prim 3 false (some (some 9))) rfl).1
  · exact (uninspectable_field_skipped (Value.prim 3 false (some (some 9))) rfl).2 [] []

/-- C9. Traversal descends only through embedded fields and through field
values that themselves implement `Form`: a (non-embedded) field whose
runtime type does not implement `Form` is never descended into, no matter
what Validatable values sit inside it — `validateField` records no events
and succeeds, and the field can be removed from any field list without
changing the walk. -/
theorem non_validatable_field_not_descended (v : Value) (h : implOf v = none) :
    validateField v = ([], none) ∧
    ∀ l1 l2, walkFields (l1 ++ (false, v) :: l2) = walkFields (l1 ++ l2) := by
  have hfield : validateField v = ([], none) := by
    rw [validateField]
    by_cases h1 : isNilPtr v
    · simp [h1]
    · by_cases h2 : canIOf v = false
      · simp [h1, h2]
      · simp [h1, h2, h]
  refine ⟨hfield, ?_⟩
  intro l1 l2
  rw [walkFields_append, walkFields_append, walkFields_cons, hfield]
  simp only [Bool.false_eq_true, if_false, tseq_nil_left]

/-- Witness for C9: a struct that does not implement `Form` but contains a
`Form` field whose `Validate()` would fail with 3; the walk never visits
the inner field (no events) and succeeds. -/
theorem non_validatable_field_not_descended_witness :
    validateField (Value.strct 4 true none
      [(false, Value.prim 5 true (some (some 3)))]) = ([], none) :=
  (non_validatable_field_not_descended
    (Value.strct 4 true none [(false, Value.prim 5 true (some (some 3)))]) rfl).1

/- C10: the double walk of embedded Validatable components. -/

/-- Fail-fast sequencing of plain results. -/
def oseq (a b : Option Err) : Option Err :=
  match a with
  | some e => some e
  | none => b

theorem tseq_snd (a b : List Event × Option Err) : (tseq a b).2 = oseq a.2 b.2 := by
  match a with
  | (t, some e) => simp [tseq, oseq]
  | (t, none) => simp [tseq, oseq]

/-- The single-walk variant of the field walk: identical to `walkFields`
except that an embedded field's own Validatable check does not re-walk its
fields (they were just walked by the flattened recursion) and goes straight
to its `Validate()`.  Used only to compare results with the real walk. -/
def walkFieldsS : List (Bool × Value) → Option Err
  | [] => none
  | (anon, fv) :: rest =>
    oseq (if anon then walkFieldsS (fieldsOf fv) else none)
      (oseq
        (if isNilPtr fv then none
         else if canIOf fv = false then none
         else
           match implOf fv with
           | none => none
           | some _ =>
             if anon then formRes fv
             else oseq (walkFieldsS (fieldsOf fv)) (formRes fv))
        (walkFieldsS rest))
termination_by l => sizeOf l
decreasing_by
  all_goals simp_wf
  all_goals have h := sizeOf_fieldsOf_le fv
  all_goals omega

/-- The result of `validateField`, expressed on plain results. -/
theorem validateField_snd (fv : Value) :
    (validateField fv).2 =
      if isNilPtr fv then none
      else if canIOf fv = false then none
      else
        match implOf fv with
        | none => none
        | some _ => oseq (walkFields (fieldsOf fv)).2 (formRes fv) := by
  rw [validateField]
  by_cases h1 : isNilPtr fv
  · simp [h1]
  · by_cases h2 : canIOf fv = false
    · simp [h1, h2]
    · simp only [h1, h2, if_false]
      match himpl : implOf fv with
      | none => simp
      | some r => simp [validate, tseq_snd, validateFields]

/-- The real walk and the single-walk variant return the same result:
under fail-fast, re-walking an embedded component's already-valid fields
cannot change the outcome. -/
theorem walkFieldsS_eq : ∀ l, walkFieldsS l = (walkFields l).2 := by
  apply sizeOf_strong_ind (fun l => walkFieldsS l = (walkFields l).2)
  intro l ih
  match l with
  | [] => rw [walkFieldsS, walkFields_nil]
  | (anon, fv) :: rest =>
    have ihf : walkFieldsS (fieldsOf fv) = (walkFields (fieldsOf fv)).2 :=
      ih _ (sizeOf_fieldsOf_lt_cons anon fv rest)
    have ihr : walkFieldsS rest = (walkFields rest).2 :=
      ih _ (sizeOf_rest_lt_cons anon fv rest)
    rw [walkFieldsS, walkFields_cons, tseq_snd, tseq_snd, ihr, validateField_snd]
    by_cases ha : anon
    · subst ha
      simp only [if_true, ihf, validateFields]
      by_cases h1 : isNilPtr fv
      · simp [h1]
      · by_cases h2 : canIOf fv = false
        · simp [h1, h2]
        · simp only [h1, h2, if_false]
          match himpl : implOf fv with
          | none => rfl
          | some r =>
            simp only
            match hw : (walkFields (fieldsOf fv)).2 with
            | none => simp [oseq]
            | some e => simp [oseq]
    · simp only [ha, Bool.false_eq_true, if_false, ihf, validateFields]

/-- C10. An embedded (anonymous) field whose value itself implements
`Form` has its component's fields walked twice in one pass: once flattened
into the parent, and once more when the embedded value is validated as a
Validatable — so each inner invocation appears twice in the trace (the
label counts double, then the embedded value's own `Validate()` runs once)
— yet under fail-fast the returned result is exactly that of the
single-walk variant on every input. -/
theorem embedded_validatable_double_walk
    (l1 l2 : List (Bool × Value)) (f : Value) (r : Option Err)
    (h1 : (walkFields l1).2 = none)
    (hn : isNilPtr f = false) (hc : canIOf f = true) (hi : implOf f = some r)
    (hf : (walkFields (fieldsOf f)).2 = none) (hr : formRes f = none) :
    (walkFields (l1 ++ (true, f) :: l2) =
      ((walkFields l1).1 ++
        ((walkFields (fieldsOf f)).1 ++ (walkFields (fieldsOf f)).1 ++
          [(labelOf f, none)]) ++ (walkFields l2).1, (walkFields l2).2)) ∧
    (∀ lab : Nat,
      (((walkFields (fieldsOf f)).1 ++ (walkFields (fieldsOf f)).1).map Prod.fst).count lab =
        2 * ((walkFields (fieldsOf f)).1.map Prod.fst).count lab) ∧
    (∀ l, walkFieldsS l = (walkFields l).2) := by
  refine ⟨?_, ?_, walkFieldsS_eq⟩
  · have e1 : walkFields l1 = ((walkFields l1).1, none) := Prod.ext rfl h1
    have ef : walkFields (fieldsOf f) = ((walkFields (fieldsOf f)).1, none) :=
      Prod.ext rfl hf
    have efield : validateField f =
        ((walkFields (fieldsOf f)).1 ++ [(labelOf f, none)], none) := by
      rw [validateField]
      simp only [hn, Bool.false_eq_true, if_false, hc, hi]
      rw [validate]
      simp only [validateFields]
      rw [ef, hr, tseq_ok]
      simp
    rw [walkFields_append, walkFields_cons]
    simp only [if_true, validateFields]
    rw [ef, efield, e1, tseq_ok, tseq_ok, tseq_ok]
    simp [List.append_assoc]
  · intro lab
    simp [List.count_append, Nat.two_mul]

/-- Witness for C10: an embedded component (label 1) implementing `Form`
with one inner `Form` field (label 2); one pass records the inner
invocation twice, then the component's own, and succeeds. -/
theorem embedded_validatable_double_walk_witness :
    walkFields [(true, Value.strct 1 true (some none)
      [(false, Value.prim 2 true (some none))])] =
      ([(2, none), (2, none), (1, none)], none) := by
  have h := (embedded_validatable_double_walk [] []
      (Value.strct 1 true (some none) [(false, Value.prim 2 true (some none))]) none
      (by rw [walkFields_nil]) rfl rfl rfl
      (by simp [fieldsOf, walkFields, validateField, tseq, isNilPtr,
        canIOf, implOf, formRes, labelOf])
      rfl).1
  refine Eq.trans ?_ (h.trans ?_)
  · rfl
  · simp [fieldsOf, walkFields, validateField, validate, validateFields, tseq,
      walkFields_nil, isNilPtr, canIOf, implOf, formRes, labelOf]

/- C8: the validator never mutates the target.  The walk is re-expressed
as a state transformer threading the target value through every step (the
only writes a Go implementation could perform); a fuel parameter makes the
threading structurally recursive.  The source performs no writes, so each
step returns its input value, and with enough fuel the returned result is
exactly the one computed by `validate`. -/

mutual
/-- `validate(form)` as a state transformer on the target value. -/
def validateM : Nat → Value → Value × Option Err
  | 0, v => (v, none)
  | n + 1, v =>
    match validateFieldsM n v with
    | (v1, some e) => (v1, some e)
    | (v1, none) => (v1, formRes v1)

/-- `validateFields(v, t)` as a state transformer: dereference one pointer
level, walk the fields if a struct, and rebuild the value around the
(possibly updated) fields. -/
def validateFieldsM : Nat → Value → Value × Option Err
  | 0, v => (v, none)
  | n + 1, .ptr l c i (some (.strct l2 c2 i2 fs)) =>
    match walkFieldsM n fs with
    | (fs1, r) => (.ptr l c i (some (.strct l2 c2 i2 fs1)), r)
  | n + 1, .strct l2 c2 i2 fs =>
    match walkFieldsM n fs with
    | (fs1, r) => (.strct l2 c2 i2 fs1, r)
  | _ + 1, v => (v, none)

/-- The field loop as a state transformer; the value produced by the
anonymous-field recursion is the one passed on to `validateFieldM`,
mirroring sequential in-place updates. -/
def walkFieldsM : Nat → List (Bool × Value) → List (Bool × Value) × Option Err
  | 0, l => (l, none)
  | _ + 1, [] => ([], none)
  | n + 1, (anon, fv) :: rest =>
    match (if anon then validateFieldsM n fv else (fv, none)) with
    | (fv1, some e) => ((anon, fv1) :: rest, some e)
    | (fv1, none) =>
      match validateFieldM n fv1 with
      | (fv2, some e) => ((anon, fv2) :: rest, some e)
      | (fv2, none) =>
        match walkFieldsM n rest with
        | (rest1, r) => ((anon, fv2) :: rest1, r)

/-- `validateField(v)` as a state transformer. -/
def validateFieldM : Nat → Value → Value × Option Err
  | 0, v => (v, none)
  | n + 1, v =>
    if isNilPtr v then (v, none)
    else if canIOf v = false then (v, none)
    else
      match implOf v with
      | none => (v, none)
      | some _ => validateM n v
end

/-- The state-passing walk returns its input unchanged at every fuel:
no step of the validator writes to the target. -/
theorem validateM_frame : ∀ n : Nat,
    (∀ v, (validateM n v).1 = v) ∧ (∀ v, (validateFieldsM n v).1 = v) ∧
    (∀ l, (walkFieldsM n l).1 = l) ∧ (∀ v, (validateFieldM n v).1 = v) := by
  intro n
  induction n with
  | zero =>
    refine ⟨fun v => ?_, fun v => ?_, fun l => ?_, fun v => ?_⟩ <;>
      simp [validateM, validateFieldsM, walkFieldsM, validateFieldM]
  | succ n ih =>
    obtain ⟨ihv, ihfs, ihw, ihf⟩ := ih
    refine ⟨fun v => ?_, fun v => ?_, fun l => ?_, fun v => ?_⟩
    · simp only [validateM]
      rcases h : validateFieldsM n v with ⟨v1, r⟩
      have hv1 : v1 = v := by
        have := ihfs v
        rw [h] at this
        exact this
      match r with
      | some e => simpa using hv1
      | none => simpa using hv1
    · match v with
      | .ptr l c i (some (.strct l2 c2 i2 fs)) =>
        simp only [validateFieldsM]
        rcases h : walkFieldsM n fs with ⟨fs1, r⟩
        have hfs1 : fs1 = fs := by
          have := ihw fs
          rw [h] at this
          exact this
        simp [hfs1]
      | .strct l2 c2 i2 fs =>
        simp only [validateFieldsM]
        rcases h : walkFieldsM n fs with ⟨fs1, r⟩
        have hfs1 : fs1 = fs := by
          have := ihw fs
          rw [h] at this
          exact this
        simp [hfs1]
      | .prim l c i => simp [validateFieldsM]
      | .ptr l c i none => simp [validateFieldsM]
      | .ptr l c i (some (.prim l2 c2 i2)) => simp [validateFieldsM]
      | .ptr l c i (some (.ptr l2 c2 i2 p2)) => simp [validateFieldsM]
    · match l with
      | [] => simp [walkFieldsM]
      | (anon, fv) :: rest =>
        simp only [walkFieldsM]
        rcases h1 : (if anon then validateFieldsM n fv else (fv, none)) with ⟨fv1, r1⟩
        have hfv1 : fv1 = fv := by
          by_cases ha : anon
          · simp only [ha, if_true] at h1
            have := ihfs fv
            rw [h1] at this
            exact this
          · simp only [ha, if_false] at h1
            exact (Prod.mk.injEq _ _ _ _ ▸ h1).1.symm ▸ rfl
        match r1 with
        | some e => simpa using hfv1
        | none =>
          simp only
          rcases h2 : validateFieldM n fv1 with ⟨fv2, r2⟩
          have hfv2 : fv2 = fv1 := by
            have := ihf fv1
            rw [h2] at this
            exact this
          match r2 with
          | some e => simp [hfv2, hfv1]
          | none =>
            simp only
            rcases h3 : walkFieldsM n rest with ⟨rest1, r3⟩
            have hrest1 : rest1 = rest := by
              have := ihw rest
              rw [h3] at this
              exact this
            simp [hfv2, hfv1, hrest1]
    · simp only [validateFieldM]
      by_cases h1 : isNilPtr v
      · simp [h1]
      · by_cases h2 : canIOf v = false
        · simp [h1, h2]
        · simp only [h1, h2, if_false]
          match himpl : implOf v with
          | none => simp
          | some r => exact ihv v

/-- With sufficient fuel the state-passing walk computes exactly the
results of the traced walk: the fuel formulation changes nothing. -/
theorem validateM_agrees : ∀ n : Nat,
    (∀ v, 8 * sizeOf v + 6 ≤ n → (validateM n v).2 = (validate v).2) ∧
    (∀ v, 8 * sizeOf v + 5 ≤ n → (validateFieldsM n v).2 = (validateFields v).2) ∧
    (∀ l, 8 * sizeOf l + 4 ≤ n → (walkFieldsM n l).2 = (walkFields l).2) ∧
    (∀ v, 8 * sizeOf v + 7 ≤ n → (validateFieldM n v).2 = (validateField v).2) := by
  intro n
  induction n with
  | zero =>
    refine ⟨fun v hb => ?_, fun v hb => ?_, fun l hb => ?_, fun v hb => ?_⟩ <;> omega
  | succ n ih =>
    obtain ⟨ihv, ihfs, ihw, ihf⟩ := ih
    refine ⟨fun v hb => ?_, fun v hb => ?_, fun l hb => ?_, fun v hb => ?_⟩
    · simp only [validateM]
      rcases h : validateFieldsM n v with ⟨v1, r⟩
      have hv1 : v1 = v := by
        have := (validateM_frame n).2.1 v
        rw [h] at this
        exact this
      have hr : r = (validateFields v).2 := by
        have := ihfs v (by omega)
        rw [h] at this
        exact this
      rw [validate, tseq_snd]
      rcases r with _ | e
      · simp only [← hr, oseq, hv1]
      · simp only [← hr, oseq]
    · match v with
      | .ptr l c i (some (.strct l2 c2 i2 fs)) =>
        simp only [validateFieldsM]
        rcases h : walkFieldsM n fs with ⟨fs1, r⟩
        have hr : r = (walkFields fs).2 := by
          have hbfs : 8 * sizeOf fs + 4 ≤ n := by
            simp only [Value.ptr.sizeOf_spec, Value.strct.sizeOf_spec,
              Option.some.sizeOf_spec] at hb
            omega
          have := ihw fs hbfs
          rw [h] at this
          exact this
        simp [validateFields, fieldsOf, hr]
      | .strct l2 c2 i2 fs =>
        simp only [validateFieldsM]
        rcases h : walkFieldsM n fs with ⟨fs1, r⟩
        have hr : r = (walkFields fs).2 := by
          have hbfs : 8 * sizeOf fs + 4 ≤ n := by
            simp only [Value.strct.sizeOf_spec] at hb
            omega
          have := ihw fs hbfs
          rw [h] at this
          exact this
        simp [validateFields, fieldsOf, hr]
      | .prim l c i => simp [validateFieldsM, validateFields, fieldsOf, walkFields_nil]
      | .ptr l c i none => simp [validateFieldsM, validateFields, fieldsOf, walkFields_nil]
      | .ptr l c i (some (.prim l2 c2 i2)) =>
        simp [validateFieldsM, validateFields, fieldsOf, walkFields_nil]
      | .ptr l c i (some (.ptr l2 c2 i2 p2)) =>
        simp [validateFieldsM, validateFields, fieldsOf, walkFields_nil]
    · match l with
      | [] => simp [walkFieldsM, walkFields_nil]
      | (anon, fv) :: rest =>
        have hbparts : 8 * sizeOf fv + 7 ≤ n ∧ 8 * sizeOf rest + 4 ≤ n := by
          simp only [List.cons.sizeOf_spec, Prod.mk.sizeOf_spec] at hb
          omega
        rw [walkFields_cons, tseq_snd, tseq_snd]
        simp only [walkFieldsM]
        rcases h1 : (if anon then validateFieldsM n fv else (fv, none)) with ⟨fv1, r1⟩
        have hfv1 : fv1 = fv := by
          by_cases ha : anon
          · simp only [ha, if_true] at h1
            have := (validateM_frame n).2.1 fv
            rw [h1] at this
            exact this
          · simp only [ha, if_false] at h1
            exact (Prod.ext_iff.1 h1.symm).1
        have hr1 : r1 = (if anon then validateFields fv else ([], none)).2 := by
          by_cases ha : anon
          · simp only [ha, if_true] at h1 ⊢
            have := ihfs fv (by omega)
            rw [h1] at this
            exact this
          · simp only [ha, if_false] at h1 ⊢
            exact (Prod.ext_iff.1 h1.symm).2
        rcases r1 with _ | e
        · simp only
          rcases h2 : validateFieldM n fv1 with ⟨fv2, r2⟩
          have hr2 : r2 = (validateField fv).2 := by
            have := ihf fv (by omega)
            rw [hfv1] at h2
            rw [h2] at this
            exact this
          rcases r2 with _ | e2
          · simp only
            rcases h3 : walkFieldsM n rest with ⟨rest1, r3⟩
            have hr3 : r3 = (walkFields rest).2 := by
              have := ihw rest (by omega)
              rw [h3] at this
              exact this
            simp only [← hr1, ← hr2, ← hr3, oseq]
          · simp only [← hr1, ← hr2, oseq]
        · simp only [← hr1, oseq]
    · simp only [validateFieldM, validateField]
      by_cases h1 : isNilPtr v
      · simp [h1]
      · by_cases h2 : canIOf v = false
        · simp [h1, h2]
        · simp only [h1, h2, if_false]
          match himpl : implOf v with
          | none => simp
          | some r => exact ihv v (by omega)

/-- C8. The recursive validator never mutates the target: expressed as a
state transformer threading the target through every step, the walk
returns its input value unchanged — at the top level and inside every
field list — while (given fuel to run to completion) returning exactly the
error result `validate` computes by inspection alone. -/
theorem validator_never_mutates :
    (∀ n v, (validateM n v).1 = v) ∧
    (∀ n l, (walkFieldsM n l).1 = l) ∧
    (∀ n v, 8 * sizeOf v + 6 ≤ n → (validateM n v).2 = (validate v).2) :=
  ⟨fun n v => (validateM_frame n).1 v,
   fun n l => (validateM_frame n).2.2.1 l,
   fun n v hb => (validateM_agrees n).1 v hb⟩

/-- Witness for C8 at a concrete structure and fuel. -/
theorem validator_never_mutates_witness :
    (validateM 1000 (Value.strct 0 true (some none)
      [(false, Value.prim 1 true (some none))])).1 =
      Value.strct 0 true (some none) [(false, Value.prim 1 true (some none))] ∧
    (validateM 1000 (Value.strct 0 true (some none)
      [(false, Value.prim 1 true (some none))])).2 =
      (validate (Value.strct 0 true (some none)
        [(false, Value.prim 1 true (some none))])).2 := by
  constructor
  · exact validator_never_mutates.1 1000 _
  · exact validator_never_mutates.2.2 1000 _ (by decide)

/- §2  The body dispatcher (forms.go `Validate`) and its content-type
parsing.  `Validate` calls `mime.ParseMediaType` from the Go standard
library; the relevant slice of that library function is embedded below
(mime/mediatype.go), projected onto the data the dispatcher consumes: the
parsed media type on success, or the error.  Strings are modelled as
`List Char`; an absent Content-Type header reads as the empty string
(`http.Header.Get`). -/

/-- Go `mime.isTSpecial`: membership in the tspecials set. -/
def tspecials : List Char :=
  ['(', ')', '<', '>', '@', ',', ';', ':', '\\', '"', '/', '[', ']', '?', '=']

def isTSpecial (c : Char) : Bool := tspecials.contains c

/-- Go `mime.isTokenChar`: any US-ASCII char except SPACE, CTLs and
tspecials. -/
def isTokenChar (c : Char) : Bool :=
  decide (0x20 < c.toNat) && decide (c.toNat < 0x7f) && !(isTSpecial c)

/-- Go `mime.consumeToken`: split off the longest prefix of token chars. -/
def consumeToken : List Char → List Char × List Char
  | [] => ([], [])
  | c :: rest =>
    if isTokenChar c then
      match consumeToken rest with
      | (tok, r) => (c :: tok, r)
    else ([], c :: rest)

/-- Errors of `mime.ParseMediaType` (the dispatcher only forwards them,
so their identity is all that matters). -/
inductive MimeErr where
  | noMediaType
  | expectedSlashAfterFirstToken
  | expectedTokenAfterSlash
  | unexpectedContentAfterSubtype
  | invalidMediaParameter
  | duplicateParamName
deriving DecidableEq

/-- Go `mime.checkMediaTypeDisposition`: a media type is a token,
optionally followed by a slash and a subtype token, with nothing after. -/
def checkMediaTypeDisposition (s : List Char) : Option MimeErr :=
  match consumeToken s with
  | (typ, rest) =>
    if typ = [] then some .noMediaType
    else if rest = [] then none
    else if rest.head? ≠ some '/' then some .expectedSlashAfterFirstToken
    else
      match consumeToken rest.tail with
      | (subtype, rest2) =>
        if subtype = [] then some .expectedTokenAfterSlash
        else if rest2 ≠ [] then some .unexpectedContentAfterSubtype
        else none

/-- `unicode.IsSpace` on the characters Latin-1 header strings can hold. -/
def isSpaceGo (c : Char) : Bool :=
  c = ' ' || c = '\t' || c = '\n' || c = '\x0B' || c = '\x0C' || c = '\r' ||
    c = '\u0085' || c = '\u00A0'

def trimLeftSpace (l : List Char) : List Char := l.dropWhile isSpaceGo

/-- `strings.TrimSpace`. -/
def trimSpace (l : List Char) : List Char :=
  ((l.dropWhile isSpaceGo).reverse.dropWhile isSpaceGo).reverse

/-- `strings.ToLower`; media types are ASCII, where Go's Unicode lowering
coincides with `Char.toLower`. -/
def toLowerGo (l : List Char) : List Char := l.map Char.toLower

/-- The quoted-string scan inside Go `mime.consumeValue`: stop at the
closing quote, keep the character after an MSIE-style backslash escape of
a tspecial, reject bare CR/LF, fail (`none`) when no closing quote is
found. -/
def consumeQuoted (acc : List Char) : List Char → Option (List Char × List Char)
  | [] => none
  | '"' :: rest => some (acc.reverse, rest)
  | '\\' :: d :: rest =>
    if isTSpecial d then consumeQuoted (d :: acc) rest
    else consumeQuoted ('\\' :: acc) (d :: rest)
  | c :: rest =>
    if c = '\r' ∨ c = '\n' then none
    else consumeQuoted (c :: acc) rest

/-- Go `mime.consumeValue`: a bare token, or a quoted string; on a failed
quoted scan, return the empty value and the original input unchanged. -/
def consumeValue (v : List Char) : List Char × List Char :=
  match v with
  | [] => ([], [])
  | '"' :: rest =>
    match consumeQuoted [] rest with
    | some (val, r) => (val, r)
    | none => ([], v)
  | _ => consumeToken v

/-- Go `mime.consumeMediaParam`: `;`, optional spaces, a lowered token
name, `=`, and a value; any failure returns the empty name and the
original input unchanged. -/
def consumeMediaParam (v : List Char) : List Char × List Char × List Char :=
  match trimLeftSpace v with
  | ';' :: rest1 =>
    match consumeToken (trimLeftSpace rest1) with
    | (param0, rest3) =>
      let param := toLowerGo param0
      if param = [] then ([], [], v)
      else
        match trimLeftSpace rest3 with
        | '=' :: rest5 =>
          let rest6 := trimLeftSpace rest5
          match consumeValue rest6 with
          | (value, rest7) =>
            if value = [] ∧ rest7 = rest6 then ([], [], v)
            else (param, value, rest7)
        | _ => ([], [], v)
  | _ => ([], [], v)

/-- Association-list lookup, modelling a Go map read. -/
def alookup (m : List (List Char × List Char)) (k : List Char) : Option (List Char) :=
  match m with
  | [] => none
  | (k2, v2) :: rest => if k2 = k then some v2 else alookup rest k

/-- Association-list write, modelling a Go map assignment. -/
def aset (m : List (List Char × List Char)) (k v : List Char) :
    List (List Char × List Char) :=
  match m with
  | [] => [(k, v)]
  | (k2, v2) :: rest => if k2 = k then (k2, v) :: rest else (k2, v2) :: aset rest k v

def clookup (m : List (List Char × List (List Char × List Char))) (k : List Char) :
    Option (List (List Char × List Char)) :=
  match m with
  | [] => none
  | (k2, v2) :: rest => if k2 = k then some v2 else clookup rest k

def cset (m : List (List Char × List (List Char × List Char))) (k : List Char)
    (v : List (List Char × List Char)) :
    List (List Char × List (List Char × List Char)) :=
  match m with
  | [] => [(k, v)]
  | (k2, v2) :: rest => if k2 = k then (k2, v) :: rest else (k2, v2) :: cset rest k v

/-- The parameter loop of Go `mime.ParseMediaType`, projected onto its
error behaviour.  `params` and `continuation` model the two Go maps used
for duplicate-name detection; the trailing RFC 2231 stitching is omitted
because it only shapes the returned parameter map — which the dispatcher
discards — and produces no error.  The `Nat` argument is fuel bounding the
loop; each successful `consumeMediaParam` strictly shrinks the input, so
the fuel `ParseMediaType` supplies is never exhausted
(`parseParamsF_irrel` below). -/
def parseParamsF : Nat → List Char → List (List Char × List Char) →
    List (List Char × List (List Char × List Char)) → Option MimeErr
  | 0, _, _, _ => some .invalidMediaParameter
  | f + 1, v, params, continuation =>
    if v = [] then none
    else
      let v1 := trimLeftSpace v
      if v1 = [] then none
      else
        match consumeMediaParam v1 with
        | (param, value, rest) =>
          if param = [] then
            if trimSpace rest = [';'] then none
            else some .invalidMediaParameter
          else
            if param.contains '*' then
              let baseName := param.takeWhile (fun c => c ≠ '*')
              let pmap := (clookup continuation baseName).getD []
              match alookup pmap param with
              | some v2 =>
                if v2 ≠ value then some .duplicateParamName
                else
                  parseParamsF f rest params
                    (cset continuation baseName (aset pmap param value))
              | none =>
                parseParamsF f rest params
                  (cset continuation baseName (aset pmap param value))
            else
              match alookup params param with
              | some v2 =>
                if v2 ≠ value then some .duplicateParamName
                else parseParamsF f rest (aset params param value) continuation
              | none => parseParamsF f rest (aset params param value) continuation

/-- Go `mime.ParseMediaType`, projected onto the data the dispatcher
consumes: split off the part before the first `;`, lower and trim it,
check its shape, then run the parameter loop on the remainder; return the
media type only when no step failed. -/
def ParseMediaType (v : List Char) : Except MimeErr (List Char) :=
  let mediatype := toLowerGo (trimSpace (v.takeWhile (fun c => c ≠ ';')))
  match checkMediaTypeDisposition mediatype with
  | some e => .error e
  | none =>
    let rem := v.dropWhile (fun c => c ≠ ';')
    match parseParamsF (rem.length + 1) rem [] [] with
    | some e => .error e
    | none => .ok mediatype

/-- The three decode paths of the dispatcher. -/
inductive DecodePath where
  | json
  | multipart
  | form
deriving DecidableEq

/-- `Validate(req, form)` (forms.go lines 20–33), projected onto path
selection: parse the Content-Type header (absent = empty string) with
`mime.ParseMediaType`; on error return it at once; otherwise switch on the
exact media type — `application/json`, `multipart/form-data`, and
everything else defaults to the URL-encoded form path. -/
def Validate (contentType : List Char) : Except MimeErr DecodePath :=
  match ParseMediaType contentType with
  | .error e => .error e
  | .ok media =>
    if media = ("application/json").data then .ok .json
    else if media = ("multipart/form-data").data then .ok .multipart
    else .ok .form

/- Progress lemmas: each successful `consumeMediaParam` strictly shrinks
its input, so the fuel `ParseMediaType` hands to the parameter loop (the
remaining length plus one) can never run out. -/

theorem trimLeftSpace_length (l : List Char) : (trimLeftSpace l).length ≤ l.length :=
  (List.dropWhile_suffix isSpaceGo).length_le

theorem consumeToken_rest_length (v : List Char) :
    (consumeToken v).2.length ≤ v.length := by
  induction v with
  | nil => simp [consumeToken]
  | cons c rest ih =>
    rw [consumeToken]
    by_cases h : isTokenChar c
    · simp only [h, if_true]
      rcases hct : consumeToken rest with ⟨tok, r⟩
      rw [hct] at ih
      simpa using Nat.le_succ_of_le ih
    · simp [h]

theorem consumeQuoted_rest_length :
    ∀ v : List Char, ∀ acc val r, consumeQuoted acc v = some (val, r) →
      r.length ≤ v.length := by
  apply sizeOf_strong_ind
    (fun v => ∀ acc val r, consumeQuoted acc v = some (val, r) → r.length ≤ v.length)
  intro v ih acc val r h
  rw [consumeQuoted.eq_def] at h
  split at h
  · exact absurd h (by simp)
  · rename_i rest
    obtain ⟨-, h2⟩ := Option.some.injEq _ _ ▸ Prod.ext_iff.1 (Option.some.inj h)
    simp only at h2
    subst h2
    simp
  · rename_i d rest
    split at h
    · have := ih rest (by simp only [List.cons.sizeOf_spec]; omega) _ _ _ h
      simp only [List.length_cons]
      omega
    · have := ih (d :: rest) (by simp only [List.cons.sizeOf_spec]; omega) _ _ _ h
      simp only [List.length_cons] at this ⊢
      omega
  · rename_i c rest hne1 hne2
    split at h
    · exact absurd h (by simp)
    · have := ih rest (by simp only [List.cons.sizeOf_spec]; omega) _ _ _ h
      simp only [List.length_cons]
      omega

theorem consumeValue_rest_length (v : List Char) :
    (consumeValue v).2.length ≤ v.length := by
  rw [consumeValue.eq_def]
  split
  · simp
  · rename_i rest
    split
    · rename_i val r hq
      have := consumeQuoted_rest_length rest [] val r hq
      simp only [List.length_cons]
      omega
    · simp
  · exact consumeToken_rest_length v

theorem consumeMediaParam_rest_lt :
    ∀ v param value rest, consumeMediaParam v = (param, value, rest) →
      param ≠ [] → rest.length < v.length := by
  intro v param value rest h hp
  rw [consumeMediaParam.eq_def] at h
  split at h
  · rename_i rest1 htrim
    have hr1 : rest1.length < v.length := by
      have := trimLeftSpace_length v
      rw [htrim] at this
      simp only [List.length_cons] at this
      omega
    rcases hct : consumeToken (trimLeftSpace rest1) with ⟨param0, rest3⟩
    rw [hct] at h
    simp only at h
    split at h
    · cases h
      exact absurd rfl hp
    · have hr3 : rest3.length ≤ rest1.length := by
        have h1 := consumeToken_rest_length (trimLeftSpace rest1)
        rw [hct] at h1
        have h2 := trimLeftSpace_length rest1
        simp only at h1
        omega
      split at h
      · rename_i rest5 htrim3
        have hr5 : rest5.length < rest3.length + 1 := by
          have := trimLeftSpace_length rest3
          rw [htrim3] at this
          simp only [List.length_cons] at this
          omega
        rcases hcv : consumeValue (trimLeftSpace rest5) with ⟨value7, rest7⟩
        rw [hcv] at h
        simp only at h
        split at h
        · cases h
          exact absurd rfl hp
        · have hr7 : rest7.length ≤ rest5.length := by
            have h1 := consumeValue_rest_length (trimLeftSpace rest5)
            rw [hcv] at h1
            have h2 := trimLeftSpace_length rest5
            simp only at h1
            omega
          cases h
          omega
      · cases h
        exact absurd rfl hp
  · cases h
    exact absurd rfl hp

/-- The parameter loop's result does not depend on the fuel, provided the
fuel exceeds the input length — which `ParseMediaType`'s choice
(length + 1) always does.  So the fuel formulation is a faithful rendering
of Go's unbounded loop. -/
theorem parseParamsF_irrel :
    ∀ f1 f2 v params cont, v.length < f1 → v.length < f2 →
      parseParamsF f1 v params cont = parseParamsF f2 v params cont := by
  intro f1
  induction f1 with
  | zero =>
    intro f2 v params cont h1 h2
    omega
  | succ g1 ih =>
    intro f2 v params cont h1 h2
    match f2 with
    | 0 => omega
    | g2 + 1 =>
      rw [parseParamsF, parseParamsF]
      by_cases hv : v = []
      · simp [hv]
      · simp only [hv, if_false]
        by_cases hv1 : trimLeftSpace v = []
        · simp [hv1]
        · simp only [hv1, if_false]
          rcases hm : consumeMediaParam (trimLeftSpace v) with ⟨param, value, rest⟩
          simp only [hm]
          by_cases hp : param = []
          · simp [hp]
          · simp only [hp, if_false]
            have hlt : rest.length < v.length :=
              Nat.lt_of_lt_of_le
                (consumeMediaParam_rest_lt (trimLeftSpace v) param value rest hm hp)
                (trimLeftSpace_length v)
            by_cases hstar : param.contains '*'
            · simp only [hstar, if_true]
              cases halk : alookup
                  ((clookup cont (param.takeWhile (fun c => c ≠ '*'))).getD []) param with
              | some v2 =>
                simp only
                by_cases hv2 : v2 ≠ value
                · simp [hv2]
                · simp only [hv2, if_false]
                  exact ih g2 rest _ _ (by omega) (by omega)
              | none =>
                simp only
                exact ih g2 rest _ _ (by omega) (by omega)
            · simp only [hstar, Bool.false_eq_true, if_false]
              cases halk : alookup params param with
              | some v2 =>
                simp only
                by_cases hv2 : v2 ≠ value
                · simp [hv2]
                · simp only [hv2, if_false]
                  exact ih g2 rest _ _ (by omega) (by omega)
              | none =>
                simp only
                exact ih g2 rest _ _ (by omega) (by omega)

/-- C6. When the Content-Type header cannot be parsed as a media type,
the dispatcher returns the parse error immediately and no decode path
(JSON, multipart or form) is ever selected. -/
theorem malformed_content_type_fails_immediately (ct : List Char) (e : MimeErr)
    (h : ParseMediaType ct = .error e) :
    Validate ct = .error e ∧ ∀ p : DecodePath, Validate ct ≠ .ok p := by
  have hv : Validate ct = .error e := by
    rw [Validate, h]
  refine ⟨hv, fun p hp => ?_⟩
  rw [hv] at hp
  cases hp

/-- Witness for C6: a header with a slash but no subtype token fails the
media-type parse, and the dispatcher forwards the error without selecting
a path. -/
theorem malformed_content_type_fails_immediately_witness :
    Validate ("text/".data) = .error MimeErr.expectedTokenAfterSlash ∧
    Validate ("text/".data) ≠ .ok DecodePath.form := by
  have h := malformed_content_type_fails_immediately ("text/".data)
    MimeErr.expectedTokenAfterSlash (by rfl)
  exact ⟨h.1, h.2 DecodePath.form⟩

/-- C2 counterexample: with an empty (equivalently, absent) Content-Type
header the dispatcher does NOT select the URL-encoded form path, contrary
to the claim — `mime.ParseMediaType` rejects the empty string with its
no-media-type error, which the dispatcher returns. -/
theorem empty_content_type_counterexample :
    Validate [] = .error MimeErr.noMediaType ∧
    Validate [] ≠ .ok DecodePath.form := by
  refine ⟨by rfl, fun h => ?_⟩
  rw [show Validate [] = .error MimeErr.noMediaType from rfl] at h
  cases h

/-- C2 (amended). Dispatch is by exact match on the successfully parsed
media type: `application/json` selects the JSON path,
`multipart/form-data` the multipart path, and any other successfully
parsed media type the URL-encoded form path by default; an empty or
absent content type does not parse, so it yields the no-media-type error
rather than the form path. -/
theorem dispatch_by_exact_media_type (ct media : List Char)
    (h : ParseMediaType ct = .ok media) :
    (Validate ct =
      if media = ("application/json").data then .ok DecodePath.json
      else if media = ("multipart/form-data").data then .ok DecodePath.multipart
      else .ok DecodePath.form) ∧
    ParseMediaType [] = .error MimeErr.noMediaType := by
  refine ⟨?_, rfl⟩
  rw [Validate, h]

/-- Witness for C2 (amended) at a header with a parameter: the parsed
media type is neither JSON nor multipart, so the form path is selected. -/
theorem dispatch_by_exact_media_type_witness :
    Validate ("text/plain; charset=utf-8".data) = .ok DecodePath.form := by
  have h := (dispatch_by_exact_media_type ("text/plain; charset=utf-8".data)
    ("text/plain".data) (by rfl)).1
  rw [if_neg (by decide), if_neg (by decide)] at h
  exact h

/- §3  Multipart decoding and the upload policy (forms.go
`ValidateMultipart` with the `UploadForm` capability, and
`DefaultMaxUploadSize`). -/

/-- `DefaultMaxUploadSize int64 = 32 << 20` (forms.go): 32 MiB. -/
def DefaultMaxUploadSize : Int := 32 * 2 ^ 20

/-- A multipart request body as the engine sees it: total size in bytes
and whether its framing is well-formed. -/
structure MultipartBody where
  size : Int
  wellFormed : Bool

inductive MultipartErr where
  | uploadTooLarge
  | malformedFraming
  | decodeFailed
  | validationFailed (e : Err)
deriving DecidableEq

/-- Modelled from the spec: `req.ParseMultipartForm(maxUploadSize)` is Go
standard library code, not part of this repository.  Per §4.4 of the spec
it parses the multipart body up to the given byte ceiling, failing with an
upload-too-large error when the body exceeds the ceiling and with a decode
error on malformed framing. -/
def parseMultipartForm (limit : Int) (body : MultipartBody) : Option MultipartErr :=
  if body.size > limit then some .uploadTooLarge
  else if body.wellFormed = false then some .malformedFraming
  else none

/-- The target form of a multipart decode call: whether its type declares
the `UploadForm` capability (`MaxUploadSize() int64`, modelled by
`maxUpload`), whether `decoder.Decode` succeeds on its value fields, and
what its validation returns. -/
structure FormModel where
  maxUpload : Option Int
  decodeOk : Bool
  validateRes : Option Err

/-- The pipeline stages of `ValidateMultipart`, recorded so theorems can
state which phases ran. -/
inductive Stage where
  | parseStage
  | decodeStage
  | validateStage
deriving DecidableEq

/-- The ceiling `ValidateMultipart` passes to the multipart parser:
`maxUploadSize := DefaultMaxUploadSize; if uf, ok := form.(UploadForm); ok
{ maxUploadSize = uf.MaxUploadSize() }`. -/
def effectiveMaxUploadSize (form : FormModel) : Int :=
  match form.maxUpload with
  | some n => n
  | none => DefaultMaxUploadSize

/-- `ValidateMultipart(req, form)` (the `UploadForm`-aware revision):
compute the ceiling, `req.ParseMultipartForm(maxUploadSize)`, then
`decoder.Decode(form, req.MultipartForm.Value)`, then validate — each step
returning the first error.  The stage list records which phases ran. -/
def ValidateMultipart (body : MultipartBody) (form : FormModel) :
    List Stage × Option MultipartErr :=
  match parseMultipartForm (effectiveMaxUploadSize form) body with
  | some e => ([.parseStage], some e)
  | none =>
    if form.decodeOk = false then ([.parseStage, .decodeStage], some .decodeFailed)
    else
      match form.validateRes with
      | some e =>
        ([.parseStage, .decodeStage, .validateStage], some (.validationFailed e))
      | none => ([.parseStage, .decodeStage, .validateStage], none)

/-- C5. Multipart decoding parses the body only up to the active upload
ceiling — by default `32 << 20` bytes (32 MiB), superseded for that single
decode call by the form's own `MaxUploadSize()` when the `UploadForm`
capability is declared.  A body over the active ceiling fails with the
upload-too-large error before the field decode or any validation runs. -/
theorem multipart_upload_ceiling (body : MultipartBody) (form : FormModel)
    (h : body.size > effectiveMaxUploadSize form) :
    ValidateMultipart body form =
      ([Stage.parseStage], some MultipartErr.uploadTooLarge) ∧
    Stage.decodeStage ∉ (ValidateMultipart body form).1 ∧
    Stage.validateStage ∉ (ValidateMultipart body form).1 ∧
    (∀ n, form.maxUpload = some n → effectiveMaxUploadSize form = n) ∧
    (form.maxUpload = none → effectiveMaxUploadSize form = 32 * 2 ^ 20) := by
  have hp : parseMultipartForm (effectiveMaxUploadSize form) body =
      some .uploadTooLarge := by
    simp [parseMultipartForm, h]
  have hv : ValidateMultipart body form =
      ([Stage.parseStage], some .uploadTooLarge) := by
    rw [ValidateMultipart, hp]
  refine ⟨hv, ?_, ?_, ?_, ?_⟩
  · rw [hv]
    simp
  · rw [hv]
    simp
  · intro n hn
    simp [effectiveMaxUploadSize, hn]
  · intro hn
    simp [effectiveMaxUploadSize, hn, DefaultMaxUploadSize]

/-- Witness for C5: a 32 MiB + 1 byte body under the default ceiling, and
a 100-byte body under a declared 50-byte per-type ceiling, both fail with
upload-too-large before decode or validation. -/
theorem multipart_upload_ceiling_witness :
    ValidateMultipart ⟨33554433, true⟩ ⟨none, true, none⟩ =
      ([Stage.parseStage], some MultipartErr.uploadTooLarge) ∧
    ValidateMultipart ⟨100, true⟩ ⟨some 50, true, none⟩ =
      ([Stage.parseStage], some MultipartErr.uploadTooLarge) :=
  ⟨(multipart_upload_ceiling ⟨33554433, true⟩ ⟨none, true, none⟩ (by decide)).1,
   (multipart_upload_ceiling ⟨100, true⟩ ⟨some 50, true, none⟩ (by decide)).1⟩

end Httpc
